import Mathlib

/-!
Verification of the `sentence` tokenizer (src/lib.rs).

The Rust library lexes a string into typed tokens in four passes:
whitespace splitting, trailing-punctuation separation
(`separate_end_punctuation`), numeric classification
(`parse_integers_and_reals`) and lexical classification
(`parse_words_etc`).  This file is a shallow embedding of that code:
strings are `List Char`, the regexes are embedded as executable matchers
over `List Char`, and the index-based splice loop of
`separate_end_punctuation` is embedded with an explicit fuel parameter so
that its termination is a theorem rather than an assumption.

Modelling notes.  `char::is_whitespace` (Unicode `White_Space`) is
modelled by the full enumerated code-point set, which is finite.  The
Rust `regex` crate classes `\d` (= `\p{Nd}`) and `\w` are
Unicode-aware and far too large to enumerate; the spec treats the
matching primitive as an external capability with exactly these
classes, so the matchers and classifier passes that depend on them are
defined both generically — with the character class as an explicit
function parameter, so that a theorem proved for every class holds in
particular at the crate's true Unicode classes — and concretely at the
executable ASCII instances `isDigitChar`/`isWordChar`, which agree
with the Unicode classes on every ASCII character and are used for
concrete evaluations and witnesses.
-/

set_option maxHeartbeats 1000000

namespace Sentence

/-- `enum Punctuation` from src/lib.rs: the seven recognized marks. -/
inductive Punctuation where
  | Colon
  | Comma
  | Dash
  | Exclamation
  | Period
  | Question
  | Semicolon
  deriving DecidableEq, Repr

/-- `enum Token` from src/lib.rs.  Payload strings are `List Char`. -/
inductive Token where
  | CommaFormattedInteger (s : List Char)
  | CommaFormattedRealNumber (s : List Char)
  | Hashtag (s : List Char)
  | HyphenatedWord (s : List Char)
  | Integer (s : List Char)
  | Punctuation (p : Punctuation)
  | RealNumber (s : List Char)
  | Url (s : List Char)
  | UsernameMention (s : List Char)
  | Word (s : List Char)
  | Unknown (s : List Char)
  deriving DecidableEq, Repr

/-- Rust `char::is_whitespace`: the Unicode `White_Space` code points. -/
def isWhitespaceChar (c : Char) : Bool :=
  c = ' ' || c = '\t' || c = '\n' || c.toNat = 0x0B || c.toNat = 0x0C || c = '\r'
    || c.toNat = 0x85 || c.toNat = 0xA0 || c.toNat = 0x1680
    || (0x2000 ≤ c.toNat && c.toNat ≤ 0x200A)
    || c.toNat = 0x2028 || c.toNat = 0x2029 || c.toNat = 0x202F || c.toNat = 0x205F
    || c.toNat = 0x3000

/-- Executable ASCII instance of the regex class `\d`.  The crate's
`\d` is Unicode `\p{Nd}` (which agrees with this instance on ASCII
characters); the generic definitions below take the class as a
parameter, and this instance is used where a concrete computable class
is needed. -/
def isDigitChar (c : Char) : Bool := c.isDigit

/-- Executable ASCII instance of the regex class `\w` (alphanumerics
and underscore; the crate's `\w` is Unicode-aware and agrees with this
instance on ASCII characters — see the note at `isDigitChar`). -/
def isWordChar (c : Char) : Bool := c.isAlphanum || c = '_'

/-- The regex class `[A-Za-z]`. -/
def isAsciiLetter (c : Char) : Bool := c.isAlpha

/-- The regex class `[\.\?\-:!,;]` used by the PUNCTUATION pattern. -/
def isPunctuationChar (c : Char) : Bool :=
  c = '.' || c = '?' || c = '-' || c = ':' || c = '!' || c = ',' || c = ';'

/-- The regex class `[\w/#\?&=\.]` of URL path/query/fragment characters. -/
def isUrlTailChar (c : Char) : Bool :=
  isWordChar c || c = '/' || c = '#' || c = '?' || c = '&' || c = '=' || c = '.'

/-- Rust `str::split(pred)`: cut at every matching character, keeping the
(possibly empty) pieces between cuts. -/
def splitOnPred (p : Char → Bool) : List Char → List (List Char)
  | [] => [[]]
  | c :: cs =>
    if p c then [] :: splitOnPred p cs
    else
      match splitOnPred p cs with
      | f :: fs => (c :: f) :: fs
      | [] => [[c]]

/-- Rust `str::trim`: strip whitespace from both ends. -/
def trim (s : List Char) : List Char :=
  ((s.dropWhile isWhitespaceChar).reverse.dropWhile isWhitespaceChar).reverse

/-- The REALS regex `^\d+\.\d+$`: digits, a literal dot, digits. -/
def isRealNumberText (s : List Char) : Bool :=
  match s.dropWhile isDigitChar with
  | c :: d2 => !(s.takeWhile isDigitChar).isEmpty && c == '.' && !d2.isEmpty
      && d2.all isDigitChar
  | [] => false

/-- The INTEGERS regex `^\d+$`. -/
def isIntegerText (s : List Char) : Bool := !s.isEmpty && s.all isDigitChar

/-- The COMMA_FORMATTED_INTEGERS regex `^(\d+,)+\d+$`: two or more
comma-separated digit groups (digit groups contain no comma, so the
comma-cuts of the string are exactly the groups). -/
def isCommaIntText (s : List Char) : Bool :=
  let ps := splitOnPred (fun c => c == ',') s
  2 ≤ ps.length && ps.all (fun g => !g.isEmpty && g.all isDigitChar)

/-- The COMMA_FORMATTED_REALS regex `^(\d+,)+\d+\.\d+$`: the comma-cuts
are one or more digit groups followed by a final `\d+\.\d+` part. -/
def isCommaRealText (s : List Char) : Bool :=
  let ps := splitOnPred (fun c => c == ',') s
  2 ≤ ps.length && ps.dropLast.all (fun g => !g.isEmpty && g.all isDigitChar)
    && isRealNumberText (ps.getLastD [])

/-- The characters of `http://`. -/
def httpScheme : List Char := ['h', 't', 't', 'p', ':', '/', '/']

/-- The characters of `https://`. -/
def httpsScheme : List Char := ['h', 't', 't', 'p', 's', ':', '/', '/']

/-- The part of the URL regex after the scheme:
`(\w+\.)+(\w+)/?([\w/#\?&=\.])*`.  A match exists exactly when the
string is a nonempty word-character run, a dot, one word character, and
then arbitrary characters of the path class (the class contains `\w`,
`.` and `/`, so the remaining host labels and any path all fall in it). -/
def urlHostTail (s : List Char) : Bool :=
  match s.dropWhile isWordChar with
  | c :: c2 :: rest => !(s.takeWhile isWordChar).isEmpty && c == '.'
      && isWordChar c2 && rest.all isUrlTailChar
  | _ => false

/-- The URL regex `^http(s)?://(\w+\.)+(\w+)/?([\w/#\?&=\.])*$`. -/
def isUrlText (s : List Char) : Bool :=
  if s.take 8 == httpsScheme then urlHostTail (s.drop 8)
  else if s.take 7 == httpScheme then urlHostTail (s.drop 7)
  else false

/-- The HASHTAG regex `^#\w+$`. -/
def isHashtagText (s : List Char) : Bool :=
  match s with
  | c :: rest => c == '#' && !rest.isEmpty && rest.all isWordChar
  | [] => false

/-- The USERNAME regex `^@\w+$`. -/
def isUsernameText (s : List Char) : Bool :=
  match s with
  | c :: rest => c == '@' && !rest.isEmpty && rest.all isWordChar
  | [] => false

/-- The WORD regex `^\w+$`. -/
def isWordText (s : List Char) : Bool := !s.isEmpty && s.all isWordChar

/-- The HYPHENATED_WORD regex `^([A-Za-z]+\-)+[A-Za-z]+$`: two or more
dash-separated nonempty letter groups. -/
def isHyphenatedText (s : List Char) : Bool :=
  let ps := splitOnPred (fun c => c == '-') s
  2 ≤ ps.length && ps.all (fun g => !g.isEmpty && g.all isAsciiLetter)

/-- Length of the match of the PUNCTUATION regex `([\.\?\-:!,;]+)$`:
the maximal trailing run of punctuation characters (0 = no match). -/
def punctRunLen (s : List Char) : Nat :=
  (s.reverse.takeWhile isPunctuationChar).length

/-- The `match mat.as_str()` arm of `separate_end_punctuation`: a
single-character match maps to its mark, anything else to the `_` arm. -/
def matchPunct (r : List Char) : Option Punctuation :=
  if r = ['!'] then some Punctuation.Exclamation
  else if r = [','] then some Punctuation.Comma
  else if r = ['-'] then some Punctuation.Dash
  else if r = ['.'] then some Punctuation.Period
  else if r = [':'] then some Punctuation.Colon
  else if r = [';'] then some Punctuation.Semicolon
  else if r = ['?'] then some Punctuation.Question
  else none

/-- The literal character of each punctuation mark. -/
def punctChar : Punctuation → Char
  | Punctuation.Colon => ':'
  | Punctuation.Comma => ','
  | Punctuation.Dash => '-'
  | Punctuation.Exclamation => '!'
  | Punctuation.Period => '.'
  | Punctuation.Question => '?'
  | Punctuation.Semicolon => ';'

/-- The `if let Some(Token::Unknown(token)) = tokens.get(i)` test. -/
def getUnknown : Option Token → Option (List Char)
  | some (Token.Unknown s) => some s
  | _ => none

/-- Rust `Vec::insert` at an in-bounds index. -/
def insertAt : Nat → Token → List Token → List Token
  | 0, x, l => x :: l
  | _ + 1, x, [] => [x]
  | n + 1, x, t :: l => t :: insertAt n x l

/-- The `while i < tokens.len()` loop of `separate_end_punctuation`,
with one unit of fuel per iteration.  The cursor bookkeeping is the
Rust code's: after splicing in `before`/punctuation/`after`, `i` is
advanced past every token written or inserted.  `after` is
`token.get(mat.end()..token.len())`, and `mat.end()` is the string's
length because the pattern is anchored at `$`. -/
def sepLoop : Nat → Nat → List Token → Option (List Token)
  | 0, i, toks => if toks.length ≤ i then some toks else none
  | fuel + 1, i, toks =>
    if i < toks.length then
      match getUnknown toks[i]? with
      | none => sepLoop fuel (i + 1) toks
      | some s =>
        let runLen := punctRunLen s
        if runLen = 0 then sepLoop fuel (i + 1) toks
        else
          match matchPunct (s.drop (s.length - runLen)) with
          | none => sepLoop fuel (i + 1) toks
          | some p =>
            let before := s.take (s.length - runLen)
            let after := s.drop s.length
            if before.isEmpty then
              let toks1 := toks.set i (Token.Punctuation p)
              if after.isEmpty then sepLoop fuel (i + 1) toks1
              else sepLoop fuel (i + 2) (insertAt (i + 1) (Token.Unknown after) toks1)
            else
              let toks1 := insertAt (i + 1) (Token.Punctuation p)
                (toks.set i (Token.Unknown before))
              if after.isEmpty then sepLoop fuel (i + 2) toks1
              else sepLoop fuel (i + 3) (insertAt (i + 2) (Token.Unknown after) toks1)
    else some toks

/-- `SentenceTokenizer::separate_end_punctuation`.  Fuel `tokens.len()`
always suffices (`sepLoop_append` below), so the default is never used. -/
def separate_end_punctuation (toks : List Token) : List Token :=
  (sepLoop toks.length 0 toks).getD toks

/-- What one iteration of the `separate_end_punctuation` loop leaves in
place of one token (the tokens the cursor then skips). -/
def sepTok : Token → List Token
  | Token.Unknown s =>
    let runLen := punctRunLen s
    if runLen = 0 then [Token.Unknown s]
    else
      match matchPunct (s.drop (s.length - runLen)) with
      | none => [Token.Unknown s]
      | some p =>
        let before := s.take (s.length - runLen)
        let after := s.drop s.length
        (if before.isEmpty then [] else [Token.Unknown before])
          ++ [Token.Punctuation p]
          ++ (if after.isEmpty then [] else [Token.Unknown after])
  | t => [t]

/-- The cumulative effect of the `separate_end_punctuation` loop. -/
def sepAll (toks : List Token) : List Token := (toks.map sepTok).flatten

/-- Loop body of `parse_integers_and_reals`: the elif-chain over the
four numeric regexes, in source order. -/
def classifyNumber (t : Token) : Token :=
  match t with
  | Token.Unknown v =>
    if isRealNumberText v then Token.RealNumber v
    else if isIntegerText v then Token.Integer v
    else if isCommaRealText v then Token.CommaFormattedRealNumber v
    else if isCommaIntText v then Token.CommaFormattedInteger v
    else Token.Unknown v
  | t => t

/-- `SentenceTokenizer::parse_integers_and_reals`. -/
def parse_integers_and_reals (toks : List Token) : List Token :=
  toks.map classifyNumber

/-- Loop body of `parse_words_etc`: the elif-chain over the five
lexical regexes, in source order. -/
def classifyWord (t : Token) : Token :=
  match t with
  | Token.Unknown v =>
    if isUrlText v then Token.Url v
    else if isHashtagText v then Token.Hashtag v
    else if isUsernameText v then Token.UsernameMention v
    else if isWordText v then Token.Word v
    else if isHyphenatedText v then Token.HyphenatedWord v
    else Token.Unknown v
  | t => t

/-- `SentenceTokenizer::parse_words_etc`. -/
def parse_words_etc (toks : List Token) : List Token :=
  toks.map classifyWord

/-- The whitespace-splitting loop at the top of `tokenize`: each piece
whose trim is empty is skipped, every other piece becomes `Unknown`
(with its original, untrimmed text). -/
def splitTokens (s : List Char) : List Token :=
  (splitOnPred isWhitespaceChar s).filterMap fun f =>
    if (trim f).length = 0 then none else some (Token.Unknown f)

/-- `SentenceTokenizer::tokenize`. -/
def tokenize (s : List Char) : List Token :=
  parse_words_etc (parse_integers_and_reals (separate_end_punctuation (splitTokens s)))

/-! ### Generic character-class layer.

The crate's `\d` and `\w` are Unicode-aware; the spec treats the
matching primitive as an external capability with exactly those
classes.  The matchers and passes that depend on them are therefore
also defined with the class as a function parameter `d` (for `\d`) or
`w` (for `\w`): a theorem proved for every class holds in particular
at the crate's true Unicode classes.  Each concrete definition above
is definitionally the generic one at the executable ASCII instance
(the `..._inst` equations below). -/

/-- The REALS regex `^\d+\.\d+$` with `\d` := `d`. -/
def isRealNumberTextD (d : Char → Bool) (s : List Char) : Bool :=
  match s.dropWhile d with
  | c :: d2 => !(s.takeWhile d).isEmpty && c == '.' && !d2.isEmpty && d2.all d
  | [] => false

/-- The INTEGERS regex `^\d+$` with `\d` := `d`. -/
def isIntegerTextD (d : Char → Bool) (s : List Char) : Bool := !s.isEmpty && s.all d

/-- The COMMA_FORMATTED_INTEGERS regex `^(\d+,)+\d+$` with `\d` := `d`. -/
def isCommaIntTextD (d : Char → Bool) (s : List Char) : Bool :=
  let ps := splitOnPred (fun c => c == ',') s
  2 ≤ ps.length && ps.all (fun g => !g.isEmpty && g.all d)

/-- The COMMA_FORMATTED_REALS regex `^(\d+,)+\d+\.\d+$` with `\d` := `d`. -/
def isCommaRealTextD (d : Char → Bool) (s : List Char) : Bool :=
  let ps := splitOnPred (fun c => c == ',') s
  2 ≤ ps.length && ps.dropLast.all (fun g => !g.isEmpty && g.all d)
    && isRealNumberTextD d (ps.getLastD [])

/-- The URL path/query/fragment class `[\w/#\?&=\.]` with `\w` := `w`. -/
def isUrlTailCharW (w : Char → Bool) (c : Char) : Bool :=
  w c || c = '/' || c = '#' || c = '?' || c = '&' || c = '=' || c = '.'

/-- The part of the URL regex after the scheme,
`(\w+\.)+(\w+)/?([\w/#\?&=\.])*`, with `\w` := `w` (same
characterization as `urlHostTail`). -/
def urlHostTailW (w : Char → Bool) (s : List Char) : Bool :=
  match s.dropWhile w with
  | c :: c2 :: rest => !(s.takeWhile w).isEmpty && c == '.'
      && w c2 && rest.all (isUrlTailCharW w)
  | _ => false

/-- The URL regex `^http(s)?://(\w+\.)+(\w+)/?([\w/#\?&=\.])*$`
with `\w` := `w`. -/
def isUrlTextW (w : Char → Bool) (s : List Char) : Bool :=
  if s.take 8 == httpsScheme then urlHostTailW w (s.drop 8)
  else if s.take 7 == httpScheme then urlHostTailW w (s.drop 7)
  else false

/-- The HASHTAG regex `^#\w+$` with `\w` := `w`. -/
def isHashtagTextW (w : Char → Bool) (s : List Char) : Bool :=
  match s with
  | c :: rest => c == '#' && !rest.isEmpty && rest.all w
  | [] => false

/-- The USERNAME regex `^@\w+$` with `\w` := `w`. -/
def isUsernameTextW (w : Char → Bool) (s : List Char) : Bool :=
  match s with
  | c :: rest => c == '@' && !rest.isEmpty && rest.all w
  | [] => false

/-- The WORD regex `^\w+$` with `\w` := `w`. -/
def isWordTextW (w : Char → Bool) (s : List Char) : Bool := !s.isEmpty && s.all w

/-- Loop body of `parse_integers_and_reals` with `\d` := `d`. -/
def classifyNumberD (d : Char → Bool) (t : Token) : Token :=
  match t with
  | Token.Unknown v =>
    if isRealNumberTextD d v then Token.RealNumber v
    else if isIntegerTextD d v then Token.Integer v
    else if isCommaRealTextD d v then Token.CommaFormattedRealNumber v
    else if isCommaIntTextD d v then Token.CommaFormattedInteger v
    else Token.Unknown v
  | t => t

/-- `parse_integers_and_reals` with `\d` := `d`. -/
def parse_integers_and_realsD (d : Char → Bool) (toks : List Token) : List Token :=
  toks.map (classifyNumberD d)

/-- Loop body of `parse_words_etc` with `\w` := `w` (the
HYPHENATED_WORD class `[A-Za-z]` is a literal ASCII class in the
source regex, so it stays concrete). -/
def classifyWordW (w : Char → Bool) (t : Token) : Token :=
  match t with
  | Token.Unknown v =>
    if isUrlTextW w v then Token.Url v
    else if isHashtagTextW w v then Token.Hashtag v
    else if isUsernameTextW w v then Token.UsernameMention v
    else if isWordTextW w v then Token.Word v
    else if isHyphenatedText v then Token.HyphenatedWord v
    else Token.Unknown v
  | t => t

/-- `parse_words_etc` with `\w` := `w`. -/
def parse_words_etcW (w : Char → Bool) (toks : List Token) : List Token :=
  toks.map (classifyWordW w)

/-- `tokenize` with the two regex character classes as parameters; the
program is the instance at the crate's Unicode `\p{Nd}` and `\w`. -/
def tokenizeW (d w : Char → Bool) (s : List Char) : List Token :=
  parse_words_etcW w (parse_integers_and_realsD d (separate_end_punctuation (splitTokens s)))

theorem isRealNumberText_inst : isRealNumberText = isRealNumberTextD isDigitChar := rfl

theorem isIntegerText_inst : isIntegerText = isIntegerTextD isDigitChar := rfl

theorem isCommaIntText_inst : isCommaIntText = isCommaIntTextD isDigitChar := rfl

theorem isCommaRealText_inst : isCommaRealText = isCommaRealTextD isDigitChar := rfl

theorem isUrlText_inst : isUrlText = isUrlTextW isWordChar := rfl

theorem isHashtagText_inst : isHashtagText = isHashtagTextW isWordChar := rfl

theorem isUsernameText_inst : isUsernameText = isUsernameTextW isWordChar := rfl

theorem isWordText_inst : isWordText = isWordTextW isWordChar := rfl

theorem parse_integers_and_reals_inst :
    parse_integers_and_reals = parse_integers_and_realsD isDigitChar := rfl

theorem parse_words_etc_inst : parse_words_etc = parse_words_etcW isWordChar := rfl

theorem tokenize_inst : tokenize = tokenizeW isDigitChar isWordChar := rfl

/-- The source substring a token stands for; a punctuation token stands
for its single literal character. -/
def tokenText : Token → List Char
  | Token.CommaFormattedInteger s => s
  | Token.CommaFormattedRealNumber s => s
  | Token.Hashtag s => s
  | Token.HyphenatedWord s => s
  | Token.Integer s => s
  | Token.Punctuation p => [punctChar p]
  | Token.RealNumber s => s
  | Token.Url s => s
  | Token.UsernameMention s => s
  | Token.Word s => s
  | Token.Unknown s => s

/-- Concatenation of the source substrings of a token sequence. -/
def textsOf (toks : List Token) : List Char := (toks.map tokenText).flatten

/-- A token's string payload is nonempty (vacuous for punctuation,
which carries no string). -/
def payloadOk : Token → Prop
  | Token.Punctuation _ => True
  | t => tokenText t ≠ []

/-! ### Generic helper lemmas -/

theorem length_takeWhile_le (p : Char → Bool) (l : List Char) :
    (l.takeWhile p).length ≤ l.length := by
  induction l with
  | nil => simp [List.takeWhile]
  | cons c cs ih =>
    by_cases h : p c
    · simpa [List.takeWhile, h] using ih
    · simp [List.takeWhile, h]

theorem takeWhile_all_append (p : Char → Bool) (a : List Char) (y : Char) (l : List Char)
    (ha : ∀ c ∈ a, p c = true) (hy : p y = false) :
    (a ++ y :: l).takeWhile p = a := by
  induction a with
  | nil => simp [List.takeWhile, hy]
  | cons c cs ih =>
    have hc : p c = true := ha c (by simp)
    simp only [List.cons_append, List.takeWhile, hc]
    simp [ih fun x hx => ha x (by simp [hx])]

theorem dropWhile_all_append (p : Char → Bool) (a : List Char) (y : Char) (l : List Char)
    (ha : ∀ c ∈ a, p c = true) (hy : p y = false) :
    (a ++ y :: l).dropWhile p = y :: l := by
  induction a with
  | nil => simp [List.dropWhile, hy]
  | cons c cs ih =>
    have hc : p c = true := ha c (by simp)
    simp only [List.cons_append, List.dropWhile, hc]
    exact ih fun x hx => ha x (by simp [hx])

theorem getElem?_append_cons (pre : List Token) (t : Token) (rest : List Token) :
    (pre ++ t :: rest)[pre.length]? = some t := by
  induction pre with
  | nil => simp
  | cons c cs ih => simpa using ih

theorem set_append_cons (pre : List Token) (t x : Token) (rest : List Token) :
    (pre ++ t :: rest).set pre.length x = pre ++ x :: rest := by
  induction pre with
  | nil => simp
  | cons c cs ih => simpa using ih

theorem insertAt_append (pre : List Token) (y : Token) (rest : List Token) :
    insertAt pre.length y (pre ++ rest) = pre ++ y :: rest := by
  induction pre with
  | nil => rfl
  | cons c cs ih =>
    cases h : cs ++ rest with
    | nil => cases cs <;> cases rest <;> simp_all [insertAt]
    | cons d ds => simp [insertAt, ← h, ih]

/-! ### `splitOnPred` lemmas -/

theorem splitOnPred_ne_nil (p : Char → Bool) (s : List Char) :
    splitOnPred p s ≠ [] := by
  cases s with
  | nil => simp [splitOnPred]
  | cons c cs =>
    by_cases h : p c
    · simp [splitOnPred, h]
    · simp only [splitOnPred, h, if_false]
      cases splitOnPred p cs <;> simp

theorem splitOnPred_flatten (p : Char → Bool) (s : List Char) :
    (splitOnPred p s).flatten = s.filter fun c => !p c := by
  induction s with
  | nil => simp [splitOnPred]
  | cons c cs ih =>
    by_cases h : p c
    · simp [splitOnPred, h, List.filter, ih]
    · cases hs : splitOnPred p cs with
      | nil => exact absurd hs (splitOnPred_ne_nil p cs)
      | cons f fs =>
        rw [hs] at ih
        simp [splitOnPred, h, hs, List.filter, ← ih]

theorem splitOnPred_pieces (p : Char → Bool) (s : List Char) :
    ∀ f ∈ splitOnPred p s, ∀ c ∈ f, p c = false := by
  intro f hf c hc
  have hmem : c ∈ (splitOnPred p s).flatten := List.mem_flatten.mpr ⟨f, hf, hc⟩
  rw [splitOnPred_flatten] at hmem
  simpa using (List.mem_filter.mp hmem).2

/-- Rebuild a string from its cut pieces, reinserting the separator. -/
def unsplit (sep : Char) : List (List Char) → List Char
  | [] => []
  | [f] => f
  | f :: fs => f ++ sep :: unsplit sep fs

theorem unsplit_splitOnPred (sep : Char) (s : List Char) :
    unsplit sep (splitOnPred (fun c => c == sep) s) = s := by
  induction s with
  | nil => rfl
  | cons c cs ih =>
    by_cases h : c = sep
    · subst h
      cases hs : splitOnPred (fun x => x == c) cs with
      | nil => exact absurd hs (splitOnPred_ne_nil _ cs)
      | cons f fs =>
        rw [hs] at ih
        calc unsplit c (splitOnPred (fun x => x == c) (c :: cs))
            = unsplit c ([] :: f :: fs) := by rw [splitOnPred]; simp [hs]
          _ = c :: unsplit c (f :: fs) := by simp [unsplit]
          _ = c :: cs := by rw [ih]
    · cases hs : splitOnPred (fun x => x == sep) cs with
      | nil => exact absurd hs (splitOnPred_ne_nil _ cs)
      | cons f fs =>
        have hcb : (c == sep) = false := by simp [h]
        rw [hs] at ih
        have hstep : splitOnPred (fun x => x == sep) (c :: cs) = (c :: f) :: fs := by
          rw [splitOnPred]; simp [hcb, hs]
        rw [hstep]
        cases fs with
        | nil => simp only [unsplit] at ih ⊢; rw [ih]
        | cons g gs =>
          simp only [unsplit] at ih ⊢
          rw [List.cons_append, ih]

theorem splitOnPred_no_sep (sep : Char) (f : List Char)
    (h : ∀ c ∈ f, (c == sep) = false) :
    splitOnPred (fun c => c == sep) f = [f] := by
  induction f with
  | nil => rfl
  | cons c cs ih =>
    have hc := h c (by simp)
    have : splitOnPred (fun c => c == sep) cs = [cs] :=
      ih fun x hx => h x (by simp [hx])
    simp [splitOnPred, hc, this]

theorem splitOnPred_cut (sep : Char) (f t : List Char)
    (h : ∀ c ∈ f, (c == sep) = false) :
    splitOnPred (fun c => c == sep) (f ++ sep :: t) =
      f :: splitOnPred (fun c => c == sep) t := by
  induction f with
  | nil => simp [splitOnPred]
  | cons c cs ih =>
    have hc := h c (by simp)
    have := ih fun x hx => h x (by simp [hx])
    simp [splitOnPred, hc, this]

theorem unsplit_concat (sep : Char) (gs : List (List Char)) (tl : List Char) :
    unsplit sep (gs ++ [tl]) = (gs.map fun g => g ++ [sep]).flatten ++ tl := by
  induction gs with
  | nil => simp [unsplit]
  | cons g gs ih =>
    cases gs with
    | nil => simp [unsplit]
    | cons g2 gs2 => simp only [List.cons_append, unsplit, List.map, List.flatten] at ih ⊢; simp [ih]

theorem splitOnPred_unsplit (sep : Char) (ps : List (List Char)) (hne : ps ≠ [])
    (h : ∀ f ∈ ps, ∀ c ∈ f, (c == sep) = false) :
    splitOnPred (fun c => c == sep) (unsplit sep ps) = ps := by
  induction ps with
  | nil => exact absurd rfl hne
  | cons f fs ih =>
    cases fs with
    | nil => exact splitOnPred_no_sep sep f (h f (by simp))
    | cons g gs =>
      have hcut := splitOnPred_cut sep f (unsplit sep (g :: gs)) (h f (by simp))
      have hrest := ih (by simp)
        fun x hx c hc => h x (List.mem_cons_of_mem f hx) c hc
      simp [unsplit, hcut, hrest]

/-! ### `matchPunct` and `punctRunLen` lemmas -/

theorem matchPunct_eq_some (r : List Char) (p : Punctuation)
    (h : matchPunct r = some p) : r = [punctChar p] := by
  unfold matchPunct at h
  split_ifs at h <;> (try (injection h with h2; subst h2)) <;> simp_all [punctChar]

theorem matchPunct_of_length_ne_one (r : List Char) (h : r.length ≠ 1) :
    matchPunct r = none := by
  unfold matchPunct
  split_ifs with h1 h2 h3 h4 h5 h6 h7 <;> simp_all

theorem punctRunLen_le (s : List Char) : punctRunLen s ≤ s.length := by
  have := length_takeWhile_le isPunctuationChar s.reverse
  simpa [punctRunLen] using this

/-! ### `sepAll` lemmas -/

theorem sepAll_nil : sepAll [] = [] := rfl

theorem sepAll_cons (t : Token) (toks : List Token) :
    sepAll (t :: toks) = sepTok t ++ sepAll toks := by
  simp [sepAll]

theorem sepAll_append (a b : List Token) :
    sepAll (a ++ b) = sepAll a ++ sepAll b := by
  simp [sepAll]

theorem sepTok_not_unknown (t : Token) (h : ∀ v, t ≠ Token.Unknown v) :
    sepTok t = [t] := by
  cases t <;> first
    | rfl
    | exact absurd rfl (h _)

theorem getUnknown_not_unknown (t : Token) (h : ∀ v, t ≠ Token.Unknown v) :
    getUnknown (some t) = none := by
  cases t <;> first
    | rfl
    | exact absurd rfl (h _)

/-! ### The loop of `separate_end_punctuation` is `sepAll`, with fuel
`tokens.len()` sufficing: each iteration consumes one unit of fuel and
moves the cursor past everything it wrote, so the remaining-suffix
length strictly decreases. -/

theorem sepLoop_append (fuel : Nat) :
    ∀ pre suf : List Token, suf.length ≤ fuel →
      sepLoop fuel pre.length (pre ++ suf) = some (pre ++ sepAll suf) := by
  induction fuel with
  | zero =>
    intro pre suf h
    have hsuf : suf = [] := List.eq_nil_of_length_eq_zero (Nat.le_zero.mp h)
    subst hsuf
    simp [sepLoop, sepAll_nil]
  | succ fuel ih =>
    intro pre suf h
    cases suf with
    | nil => simp [sepLoop, sepAll_nil]
    | cons t rest =>
      have hrest : rest.length ≤ fuel := Nat.le_of_succ_le_succ (by simpa using h)
      have hlt : pre.length < (pre ++ t :: rest).length := by simp
      rw [sepLoop, if_pos hlt, getElem?_append_cons]
      by_cases hu : ∀ v, t ≠ Token.Unknown v
      · rw [getUnknown_not_unknown t hu]
        have step := ih (pre ++ [t]) rest hrest
        simp only [List.length_append, List.length_cons, List.length_nil,
          List.append_assoc, List.singleton_append] at step
        simpa [sepAll_cons, sepTok_not_unknown t hu] using step
      · push_neg at hu
        obtain ⟨s, hs⟩ := hu
        subst hs
        show (match getUnknown (some (Token.Unknown s)) with
          | none => sepLoop fuel (pre.length + 1) (pre ++ Token.Unknown s :: rest)
          | some s => _) = _
        rw [show getUnknown (some (Token.Unknown s)) = some s from rfl]
        simp only []
        by_cases h0 : punctRunLen s = 0
        · rw [if_pos h0]
          have step := ih (pre ++ [Token.Unknown s]) rest hrest
          simp only [List.length_append, List.length_cons, List.length_nil,
            List.append_assoc, List.singleton_append] at step
          rw [step, sepAll_cons, sepTok]
          simp [h0]
        · rw [if_neg h0]
          cases hm : matchPunct (s.drop (s.length - punctRunLen s)) with
          | none =>
            have step := ih (pre ++ [Token.Unknown s]) rest hrest
            simp only [List.length_append, List.length_cons, List.length_nil,
              List.append_assoc, List.singleton_append] at step
            rw [step, sepAll_cons, sepTok]
            simp [h0, hm]
          | some p =>
            have hafter : s.drop s.length = [] := List.drop_length s
            simp only [hafter, List.isEmpty_nil, if_true]
            by_cases hb : (s.take (s.length - punctRunLen s)).isEmpty
            · rw [if_pos hb, set_append_cons]
              have step := ih (pre ++ [Token.Punctuation p]) rest hrest
              simp only [List.length_append, List.length_cons, List.length_nil,
                List.append_assoc, List.singleton_append] at step
              rw [step, sepAll_cons, sepTok]
              simp [h0, hm, hb, hafter]
            · rw [if_neg hb, set_append_cons]
              have hins : insertAt (pre.length + 1) (Token.Punctuation p)
                  (pre ++ Token.Unknown (s.take (s.length - punctRunLen s)) :: rest) =
                  pre ++ Token.Unknown (s.take (s.length - punctRunLen s))
                    :: Token.Punctuation p :: rest := by
                have := insertAt_append
                  (pre ++ [Token.Unknown (s.take (s.length - punctRunLen s))])
                  (Token.Punctuation p) rest
                simpa using this
              rw [hins]
              have step := ih (pre ++ [Token.Unknown (s.take (s.length - punctRunLen s)),
                Token.Punctuation p]) rest hrest
              simp only [List.length_append, List.length_cons, List.length_nil,
                List.append_assoc] at step
              simp only [List.cons_append, List.nil_append,
                show pre.length + 1 + 1 = pre.length + 2 from rfl] at step
              rw [step, sepAll_cons, sepTok]
              simp [h0, hm, hb, hafter]

theorem sep_eq_sepAll (toks : List Token) :
    separate_end_punctuation toks = sepAll toks := by
  have h := sepLoop_append toks.length [] toks (Nat.le_refl _)
  simp only [List.length_nil, List.nil_append] at h
  simp [separate_end_punctuation, h]

/-! ### Text preservation (for the concatenation claim) -/

theorem textsOf_nil : textsOf [] = [] := rfl

theorem textsOf_cons (t : Token) (toks : List Token) :
    textsOf (t :: toks) = tokenText t ++ textsOf toks := by
  simp [textsOf]

theorem textsOf_append (a b : List Token) :
    textsOf (a ++ b) = textsOf a ++ textsOf b := by
  simp [textsOf]

theorem tokenText_classifyNumber (t : Token) :
    tokenText (classifyNumber t) = tokenText t := by
  cases t <;> simp only [classifyNumber] <;> split_ifs <;> rfl

theorem tokenText_classifyWord (t : Token) :
    tokenText (classifyWord t) = tokenText t := by
  cases t <;> simp only [classifyWord] <;> split_ifs <;> rfl

theorem textsOf_sepTok (t : Token) : textsOf (sepTok t) = tokenText t := by
  cases t with
  | Unknown s =>
    simp only [sepTok]
    by_cases h0 : punctRunLen s = 0
    · simp [h0, textsOf, tokenText]
    · rw [if_neg h0]
      cases hm : matchPunct (s.drop (s.length - punctRunLen s)) with
      | none => simp [textsOf, tokenText]
      | some p =>
        have hrun : s.drop (s.length - punctRunLen s) = [punctChar p] :=
          matchPunct_eq_some _ p hm
        have hsplit : s.take (s.length - punctRunLen s) ++ [punctChar p] = s := by
          rw [← hrun]; exact List.take_append_drop _ s
        have hafter : s.drop s.length = [] := List.drop_length s
        by_cases hb : (s.take (s.length - punctRunLen s)).isEmpty
        · have hnil : s.take (s.length - punctRunLen s) = [] := by
            simpa [List.isEmpty_iff] using hb
          rw [hnil] at hsplit
          simp only [List.nil_append] at hsplit
          simp [hb, hafter, textsOf, tokenText, hsplit]
        · simpa [hb, hafter, textsOf, tokenText] using hsplit
  | CommaFormattedInteger s => simp [sepTok, textsOf]
  | CommaFormattedRealNumber s => simp [sepTok, textsOf]
  | Hashtag s => simp [sepTok, textsOf]
  | HyphenatedWord s => simp [sepTok, textsOf]
  | Integer s => simp [sepTok, textsOf]
  | Punctuation p => simp [sepTok, textsOf]
  | RealNumber s => simp [sepTok, textsOf]
  | Url s => simp [sepTok, textsOf]
  | UsernameMention s => simp [sepTok, textsOf]
  | Word s => simp [sepTok, textsOf]

theorem textsOf_sepAll (toks : List Token) : textsOf (sepAll toks) = textsOf toks := by
  induction toks with
  | nil => rfl
  | cons t rest ih => rw [sepAll_cons, textsOf_append, textsOf_sepTok, textsOf_cons, ih]

theorem textsOf_parse_integers_and_reals (toks : List Token) :
    textsOf (parse_integers_and_reals toks) = textsOf toks := by
  induction toks with
  | nil => rfl
  | cons t rest ih =>
    simp only [parse_integers_and_reals, List.map] at ih ⊢
    rw [textsOf_cons, textsOf_cons, tokenText_classifyNumber, ih]

theorem textsOf_parse_words_etc (toks : List Token) :
    textsOf (parse_words_etc toks) = textsOf toks := by
  induction toks with
  | nil => rfl
  | cons t rest ih =>
    simp only [parse_words_etc, List.map] at ih ⊢
    rw [textsOf_cons, textsOf_cons, tokenText_classifyWord, ih]

theorem trim_of_no_ws (f : List Char) (h : ∀ c ∈ f, isWhitespaceChar c = false) :
    trim f = f := by
  have h1 : f.dropWhile isWhitespaceChar = f := by
    cases f with
    | nil => rfl
    | cons c cs => simp [List.dropWhile, h c (by simp)]
  rw [trim, h1]
  have h2 : f.reverse.dropWhile isWhitespaceChar = f.reverse := by
    cases hf : f.reverse with
    | nil => rfl
    | cons c cs =>
      have hc : c ∈ f := by
        have : c ∈ f.reverse := by simp [hf]
        simpa using this
      simp [List.dropWhile, h c hc]
  rw [h2, List.reverse_reverse]

theorem textsOf_splitTokens (s : List Char) :
    textsOf (splitTokens s) = (splitOnPred isWhitespaceChar s).flatten := by
  have key : ∀ fs : List (List Char),
      (∀ f ∈ fs, ∀ c ∈ f, isWhitespaceChar c = false) →
      textsOf (fs.filterMap fun f =>
        if (trim f).length = 0 then none else some (Token.Unknown f)) = fs.flatten := by
    intro fs
    induction fs with
    | nil => intro _; rfl
    | cons f fs ih =>
      intro hfs
      have hf : ∀ c ∈ f, isWhitespaceChar c = false := hfs f (by simp)
      have htrim : trim f = f := trim_of_no_ws f hf
      have hrest := ih fun g hg => hfs g (List.mem_cons_of_mem f hg)
      by_cases hz : (trim f).length = 0
      · have hfnil : f = [] := by
          rw [htrim] at hz
          exact List.eq_nil_of_length_eq_zero hz
        subst hfnil
        rw [List.filterMap_cons]
        simp [show trim ([] : List Char) = [] from rfl]
        simpa using hrest
      · have hne : trim f ≠ [] := fun hh => hz (by simp [hh])
        rw [List.filterMap_cons]
        simp [hne, textsOf_cons, tokenText]
        simpa using hrest
  exact key _ (splitOnPred_pieces isWhitespaceChar s)

/-! ### Pass structure lemmas -/

theorem classifyNumber_not_unknown (t : Token) (h : ∀ v, t ≠ Token.Unknown v) :
    classifyNumber t = t := by
  cases t <;> first
    | rfl
    | exact absurd rfl (h _)

theorem classifyWord_not_unknown (t : Token) (h : ∀ v, t ≠ Token.Unknown v) :
    classifyWord t = t := by
  cases t <;> first
    | rfl
    | exact absurd rfl (h _)

theorem sep_append_cons (pre : List Token) (t : Token) (post : List Token) :
    separate_end_punctuation (pre ++ t :: post) =
      separate_end_punctuation pre ++ sepTok t ++ separate_end_punctuation post := by
  rw [sep_eq_sepAll, sep_eq_sepAll, sep_eq_sepAll, show pre ++ t :: post = pre ++ [t] ++ post by
    simp, sepAll_append, sepAll_append, sepAll_cons, sepAll_nil, List.append_nil]

theorem sepTok_long_run (s : List Char) (h : 2 ≤ punctRunLen s) :
    sepTok (Token.Unknown s) = [Token.Unknown s] := by
  have h0 : punctRunLen s ≠ 0 := by omega
  have hlen : (s.drop (s.length - punctRunLen s)).length = punctRunLen s := by
    have := punctRunLen_le s
    rw [List.length_drop]
    omega
  have hm : matchPunct (s.drop (s.length - punctRunLen s)) = none := by
    apply matchPunct_of_length_ne_one
    omega
  simp [sepTok, h0, hm]

/-! ### Spec-side readings of the four numeric regexes (transcribed
from the spec text, generic in the `\d` class `d`, to be compared with
the executable matchers). -/

/-- The language of `^\d+\.\d+$` as the spec states it: one or more
digits, a literal dot, one or more digits, nothing else. -/
def SpecPlainReal (d : Char → Bool) (s : List Char) : Prop :=
  ∃ a b : List Char, a ≠ [] ∧ b ≠ [] ∧ (∀ c ∈ a, d c = true) ∧
    (∀ c ∈ b, d c = true) ∧ s = a ++ '.' :: b

/-- The language of `^\d+$` as the spec states it. -/
def SpecPlainInt (d : Char → Bool) (s : List Char) : Prop :=
  s ≠ [] ∧ ∀ c ∈ s, d c = true

/-- One or more `\d+,` groups: the shared prefix of the two
comma-grouped patterns. -/
def SpecCommaGroups (d : Char → Bool) (gs : List (List Char)) : Prop :=
  gs ≠ [] ∧ ∀ g ∈ gs, g ≠ [] ∧ ∀ c ∈ g, d c = true

/-- The language of `^(\d+,)+\d+$` as the spec states it. -/
def SpecCommaInt (d : Char → Bool) (s : List Char) : Prop :=
  ∃ gs tl, SpecCommaGroups d gs ∧ SpecPlainInt d tl ∧
    s = (gs.map fun g => g ++ [',']).flatten ++ tl

/-- The language of `^(\d+,)+\d+\.\d+$` as the spec states it. -/
def SpecCommaReal (d : Char → Bool) (s : List Char) : Prop :=
  ∃ gs tl, SpecCommaGroups d gs ∧ SpecPlainReal d tl ∧
    s = (gs.map fun g => g ++ [',']).flatten ++ tl

theorem isRealNumberTextD_iff (d : Char → Bool) (hd : d '.' = false) (s : List Char) :
    isRealNumberTextD d s = true ↔ SpecPlainReal d s := by
  constructor
  · intro h
    unfold isRealNumberTextD at h
    split at h
    case _ c d2 heq =>
      simp only [Bool.and_eq_true, beq_iff_eq] at h
      obtain ⟨⟨⟨h1, h2⟩, h3⟩, h4⟩ := h
      subst h2
      refine ⟨s.takeWhile d, d2, ?_, ?_, ?_, ?_, ?_⟩
      · intro hnil; rw [hnil] at h1; simp at h1
      · intro hnil; rw [hnil] at h3; simp at h3
      · intro c hc; exact List.mem_takeWhile_imp hc
      · intro c hc; exact (List.all_eq_true.mp h4) c hc
      · rw [← heq]; exact (List.takeWhile_append_dropWhile d s).symm
    case _ => exact absurd h (by simp)
  · rintro ⟨a, b, ha, hb, hda, hdb, rfl⟩
    have htw : (a ++ '.' :: b).takeWhile d = a :=
      takeWhile_all_append d a '.' b hda hd
    have hdw : (a ++ '.' :: b).dropWhile d = '.' :: b :=
      dropWhile_all_append d a '.' b hda hd
    unfold isRealNumberTextD
    rw [hdw]
    simp [htw, ha, hb, List.all_eq_true.mpr hdb]

theorem isIntegerTextD_iff (d : Char → Bool) (s : List Char) :
    isIntegerTextD d s = true ↔ SpecPlainInt d s := by
  unfold isIntegerTextD SpecPlainInt
  cases s <;> simp [List.all_eq_true]

theorem no_comma_of_digits (d : Char → Bool) (hcd : d ',' = false) (g : List Char)
    (h : ∀ c ∈ g, d c = true) : ∀ c ∈ g, (c == ',') = false := by
  intro c hc
  have hdc := h c hc
  simp only [beq_eq_false_iff_ne, ne_eq]
  intro hcomma
  subst hcomma
  rw [hcd] at hdc
  exact Bool.noConfusion hdc

theorem no_comma_of_real (d : Char → Bool) (hcd : d ',' = false) (tl : List Char)
    (h : SpecPlainReal d tl) : ∀ c ∈ tl, (c == ',') = false := by
  obtain ⟨a, b, _, _, hda, hdb, rfl⟩ := h
  intro c hc
  simp only [List.mem_append, List.mem_cons] at hc
  rcases hc with hc | hc | hc
  · exact no_comma_of_digits d hcd a hda c hc
  · subst hc; decide
  · exact no_comma_of_digits d hcd b hdb c hc

theorem comma_split_concat (gs : List (List Char)) (tl : List Char)
    (hgs : ∀ g ∈ gs, ∀ c ∈ g, (c == ',') = false)
    (htl : ∀ c ∈ tl, (c == ',') = false) :
    splitOnPred (fun c => c == ',') ((gs.map fun g => g ++ [',']).flatten ++ tl) =
      gs ++ [tl] := by
  have h1 : (gs.map fun g => g ++ [',']).flatten ++ tl = unsplit ',' (gs ++ [tl]) :=
    (unsplit_concat ',' gs tl).symm
  rw [h1]
  apply splitOnPred_unsplit ',' (gs ++ [tl]) (by simp)
  intro f hf c hc
  rcases List.mem_append.mp hf with hf | hf
  · exact hgs f hf c hc
  · rw [List.mem_singleton.mp hf] at hc; exact htl c hc

theorem piece_ok_iff (d : Char → Bool) (g : List Char) :
    (!g.isEmpty && g.all d) = true ↔ (g ≠ [] ∧ ∀ c ∈ g, d c = true) := by
  simp [List.isEmpty_iff, List.all_eq_true]

theorem isCommaIntTextD_iff (d : Char → Bool) (hcd : d ',' = false) (s : List Char) :
    isCommaIntTextD d s = true ↔ SpecCommaInt d s := by
  constructor
  · intro h
    unfold isCommaIntTextD at h
    simp only [Bool.and_eq_true, decide_eq_true_eq] at h
    obtain ⟨hlen, hall⟩ := h
    rcases List.eq_nil_or_concat (splitOnPred (fun c => c == ',') s) with hnil | ⟨gs, tl, heq⟩
    · exact absurd hnil (splitOnPred_ne_nil _ s)
    · rw [List.concat_eq_append] at heq
      have hs : s = (gs.map fun g => g ++ [',']).flatten ++ tl := by
        have := unsplit_splitOnPred ',' s
        rw [heq, unsplit_concat] at this
        exact this.symm
      have hmem : ∀ g ∈ gs ++ [tl], g ≠ [] ∧ ∀ c ∈ g, d c = true := by
        intro g hg
        exact (piece_ok_iff d g).mp (List.all_eq_true.mp hall g (by rw [heq]; exact hg))
      refine ⟨gs, tl, ⟨?_, fun g hg => hmem g (List.mem_append.mpr (Or.inl hg))⟩,
        hmem tl (by simp), hs⟩
      intro hgnil
      rw [heq] at hlen
      simp [hgnil] at hlen
  · rintro ⟨gs, tl, ⟨hgne, hgs⟩, htl, rfl⟩
    unfold isCommaIntTextD
    rw [comma_split_concat gs tl (fun g hg => no_comma_of_digits d hcd g (hgs g hg).2)
      (no_comma_of_digits d hcd tl htl.2)]
    simp only [Bool.and_eq_true, decide_eq_true_eq]
    refine ⟨?_, List.all_eq_true.mpr fun g hg => (piece_ok_iff d g).mpr ?_⟩
    · cases gs with
      | nil => exact absurd rfl hgne
      | cons g gs2 => simp
    · rcases List.mem_append.mp hg with hg | hg
      · exact hgs g hg
      · rw [List.mem_singleton.mp hg]
        exact htl

theorem isCommaRealTextD_iff (d : Char → Bool) (hcd : d ',' = false)
    (hd : d '.' = false) (s : List Char) :
    isCommaRealTextD d s = true ↔ SpecCommaReal d s := by
  constructor
  · intro h
    unfold isCommaRealTextD at h
    simp only [Bool.and_eq_true, decide_eq_true_eq] at h
    obtain ⟨⟨hlen, hinit⟩, hlast⟩ := h
    rcases List.eq_nil_or_concat (splitOnPred (fun c => c == ',') s) with hnil | ⟨gs, tl, heq⟩
    · exact absurd hnil (splitOnPred_ne_nil _ s)
    · rw [List.concat_eq_append] at heq
      have hs : s = (gs.map fun g => g ++ [',']).flatten ++ tl := by
        have := unsplit_splitOnPred ',' s
        rw [heq, unsplit_concat] at this
        exact this.symm
      have hgs2 : ∀ g ∈ gs, g ≠ [] ∧ ∀ c ∈ g, d c = true := by
        intro g hg
        exact (piece_ok_iff d g).mp
          (List.all_eq_true.mp hinit g (by rw [heq, List.dropLast_concat]; exact hg))
      have htl2 : isRealNumberTextD d tl = true := by
        rw [heq, List.getLastD_concat] at hlast
        exact hlast
      refine ⟨gs, tl, ⟨?_, hgs2⟩, (isRealNumberTextD_iff d hd tl).mp htl2, hs⟩
      intro hgnil
      rw [heq] at hlen
      simp [hgnil] at hlen
  · rintro ⟨gs, tl, ⟨hgne, hgs⟩, htl, rfl⟩
    unfold isCommaRealTextD
    rw [comma_split_concat gs tl (fun g hg => no_comma_of_digits d hcd g (hgs g hg).2)
      (no_comma_of_real d hcd tl htl)]
    simp only [Bool.and_eq_true, decide_eq_true_eq]
    refine ⟨⟨?_, ?_⟩, ?_⟩
    · cases gs with
      | nil => exact absurd rfl hgne
      | cons g gs2 => simp
    · refine List.all_eq_true.mpr fun g hg => (piece_ok_iff d g).mpr ?_
      rw [List.dropLast_concat] at hg
      exact hgs g hg
    · rw [List.getLastD_concat]
      exact (isRealNumberTextD_iff d hd tl).mpr htl

/-! ### Inversion lemmas for the classifier passes -/

theorem classifyNumberD_eq_unknown (d : Char → Bool) (t : Token) (v : List Char)
    (h : classifyNumberD d t = Token.Unknown v) :
    t = Token.Unknown v ∧ isRealNumberTextD d v = false ∧ isIntegerTextD d v = false ∧
      isCommaRealTextD d v = false ∧ isCommaIntTextD d v = false := by
  cases t with
  | Unknown u =>
    simp only [classifyNumberD] at h
    split_ifs at h <;> simp_all
  | CommaFormattedInteger s => exact absurd h (by simp [classifyNumberD])
  | CommaFormattedRealNumber s => exact absurd h (by simp [classifyNumberD])
  | Hashtag s => exact absurd h (by simp [classifyNumberD])
  | HyphenatedWord s => exact absurd h (by simp [classifyNumberD])
  | Integer s => exact absurd h (by simp [classifyNumberD])
  | Punctuation p => exact absurd h (by simp [classifyNumberD])
  | RealNumber s => exact absurd h (by simp [classifyNumberD])
  | Url s => exact absurd h (by simp [classifyNumberD])
  | UsernameMention s => exact absurd h (by simp [classifyNumberD])
  | Word s => exact absurd h (by simp [classifyNumberD])

theorem classifyWordW_eq_unknown (w : Char → Bool) (t : Token) (v : List Char)
    (h : classifyWordW w t = Token.Unknown v) :
    t = Token.Unknown v ∧ isUrlTextW w v = false ∧ isHashtagTextW w v = false ∧
      isUsernameTextW w v = false ∧ isWordTextW w v = false ∧
      isHyphenatedText v = false := by
  cases t with
  | Unknown u =>
    simp only [classifyWordW] at h
    split_ifs at h <;> simp_all
  | CommaFormattedInteger s => exact absurd h (by simp [classifyWordW])
  | CommaFormattedRealNumber s => exact absurd h (by simp [classifyWordW])
  | Hashtag s => exact absurd h (by simp [classifyWordW])
  | HyphenatedWord s => exact absurd h (by simp [classifyWordW])
  | Integer s => exact absurd h (by simp [classifyWordW])
  | Punctuation p => exact absurd h (by simp [classifyWordW])
  | RealNumber s => exact absurd h (by simp [classifyWordW])
  | Url s => exact absurd h (by simp [classifyWordW])
  | UsernameMention s => exact absurd h (by simp [classifyWordW])
  | Word s => exact absurd h (by simp [classifyWordW])

/-! ### Payload lemmas -/

theorem payloadOk_classifyNumber (t : Token) (h : payloadOk t) :
    payloadOk (classifyNumber t) := by
  cases t <;> simp only [classifyNumber] <;> first
    | exact h
    | (split_ifs <;> simpa [payloadOk, tokenText] using h)

theorem payloadOk_classifyWord (t : Token) (h : payloadOk t) :
    payloadOk (classifyWord t) := by
  cases t <;> simp only [classifyWord] <;> first
    | exact h
    | (split_ifs <;> simpa [payloadOk, tokenText] using h)

theorem payloadOk_sepTok (t : Token) (h : payloadOk t) :
    ∀ u ∈ sepTok t, payloadOk u := by
  intro u hu
  cases t with
  | Unknown s =>
    simp only [sepTok] at hu
    by_cases h0 : punctRunLen s = 0
    · simp only [h0, if_pos rfl] at hu
      rw [List.mem_singleton.mp hu]
      exact h
    · rw [if_neg h0] at hu
      cases hm : matchPunct (s.drop (s.length - punctRunLen s)) with
      | none =>
        rw [hm] at hu
        rw [List.mem_singleton.mp hu]
        exact h
      | some p =>
        rw [hm] at hu
        have hafter : s.drop s.length = [] := List.drop_length s
        rw [hafter] at hu
        simp only [List.isEmpty_nil, if_true, List.append_nil] at hu
        by_cases hb : (s.take (s.length - punctRunLen s)).isEmpty
        · rw [if_pos hb] at hu
          simp only [List.nil_append, List.mem_singleton] at hu
          rw [hu]
          exact trivial
        · rw [if_neg hb] at hu
          simp only [List.mem_append, List.mem_singleton] at hu
          rcases hu with hu | hu
          · subst hu
            simpa [payloadOk, tokenText, List.isEmpty_iff] using hb
          · subst hu
            exact trivial
  | CommaFormattedInteger s => rw [List.mem_singleton.mp hu]; exact h
  | CommaFormattedRealNumber s => rw [List.mem_singleton.mp hu]; exact h
  | Hashtag s => rw [List.mem_singleton.mp hu]; exact h
  | HyphenatedWord s => rw [List.mem_singleton.mp hu]; exact h
  | Integer s => rw [List.mem_singleton.mp hu]; exact h
  | Punctuation p => rw [List.mem_singleton.mp hu]; exact h
  | RealNumber s => rw [List.mem_singleton.mp hu]; exact h
  | Url s => rw [List.mem_singleton.mp hu]; exact h
  | UsernameMention s => rw [List.mem_singleton.mp hu]; exact h
  | Word s => rw [List.mem_singleton.mp hu]; exact h

theorem payloadOk_splitTokens (s : List Char) :
    ∀ t ∈ splitTokens s, payloadOk t := by
  intro t ht
  obtain ⟨f, hf, hkeep⟩ := List.mem_filterMap.mp ht
  by_cases hz : (trim f).length = 0
  · rw [if_pos hz] at hkeep
    cases hkeep
  · rw [if_neg hz] at hkeep
    injection hkeep with hkeep
    subst hkeep
    have hfne : f ≠ [] := by
      intro hnil
      subst hnil
      exact hz rfl
    simpa [payloadOk, tokenText] using hfne

theorem payloadOk_sepAll (toks : List Token) (h : ∀ t ∈ toks, payloadOk t) :
    ∀ u ∈ sepAll toks, payloadOk u := by
  intro u hu
  simp only [sepAll] at hu
  obtain ⟨l, hl, hul⟩ := List.mem_flatten.mp hu
  obtain ⟨t, ht, rfl⟩ := List.mem_map.mp hl
  exact payloadOk_sepTok t (h t ht) u hul

/-! ### The URL matcher on well-formed host strings -/

theorem urlHostTailW_of_shape (w : Char → Bool) (hdot : w '.' = false)
    (w1 : List Char) (c : Char) (rest : List Char)
    (h1 : w1 ≠ []) (h2 : ∀ x ∈ w1, w x = true) (h3 : w c = true)
    (h4 : ∀ x ∈ rest, isUrlTailCharW w x = true) :
    urlHostTailW w (w1 ++ '.' :: c :: rest) = true := by
  have hdw : (w1 ++ '.' :: c :: rest).dropWhile w = '.' :: c :: rest :=
    dropWhile_all_append w w1 '.' (c :: rest) h2 hdot
  have htw : (w1 ++ '.' :: c :: rest).takeWhile w = w1 :=
    takeWhile_all_append w w1 '.' (c :: rest) h2 hdot
  unfold urlHostTailW
  rw [hdw]
  simp [htw, h1, h3, List.all_eq_true.mpr h4]

theorem isUrlTextW_http (w : Char → Bool) (body : List Char) :
    isUrlTextW w (httpScheme ++ body) = urlHostTailW w body := by
  unfold isUrlTextW
  have h7 : (httpScheme ++ body).take 7 = httpScheme := by
    rw [show 7 = httpScheme.length from rfl, List.take_left]
  have hd7 : (httpScheme ++ body).drop 7 = body := by
    rw [show 7 = httpScheme.length from rfl, List.drop_left]
  have hne : ((httpScheme ++ body).take 8 == httpsScheme) = false := by
    cases body with
    | nil => decide
    | cons b bs =>
      simp only [httpScheme, List.cons_append, List.nil_append]
      rw [show (8 : Nat) = 7 + 1 from rfl]
      simp only [List.take_succ_cons, httpsScheme]
      simp
  rw [hne, if_neg (by simp), h7, hd7, if_pos (by simp)]

theorem isUrlTextW_https (w : Char → Bool) (body : List Char) :
    isUrlTextW w (httpsScheme ++ body) = urlHostTailW w body := by
  unfold isUrlTextW
  have h8 : (httpsScheme ++ body).take 8 = httpsScheme := by
    rw [show 8 = httpsScheme.length from rfl, List.take_left]
  have hd8 : (httpsScheme ++ body).drop 8 = body := by
    rw [show 8 = httpsScheme.length from rfl, List.drop_left]
  rw [h8, hd8, if_pos (by simp)]

/-! ### Whitespace-only inputs -/

theorem splitTokens_all_ws (s : List Char) (h : ∀ c ∈ s, isWhitespaceChar c = true) :
    splitTokens s = [] := by
  have hfrag : ∀ f ∈ splitOnPred isWhitespaceChar s, f = [] := by
    intro f hf
    cases f with
    | nil => rfl
    | cons c cs =>
      have hc : c ∈ s := by
        have : c ∈ (splitOnPred isWhitespaceChar s).flatten :=
          List.mem_flatten.mpr ⟨c :: cs, hf, by simp⟩
        rw [splitOnPred_flatten] at this
        exact (List.mem_filter.mp this).1
      have := splitOnPred_pieces isWhitespaceChar s (c :: cs) hf c (by simp)
      rw [h c hc] at this
      cases this
  unfold splitTokens
  rw [List.filterMap_eq_nil]
  intro f hf
  rw [hfrag f hf]
  simp [show trim ([] : List Char) = [] from rfl]

/-! ### The claims -/

/-- C1: for every input string, `tokenize` terminates: the
`separate_end_punctuation` loop, given exactly one unit of fuel per
token of its input, reaches `i ≥ tokens.len()` and returns — i.e. it
runs at most `tokens.len()` iterations because the scan cursor strictly
advances past every token it writes or inserts — and `tokenize` is the
two classifier passes applied to that loop result.  In particular runs
of two or more punctuation characters cannot loop or fail. -/
theorem claim_C1_termination (s : List Char) :
    ∃ out : List Token,
      sepLoop (splitTokens s).length 0 (splitTokens s) = some out ∧
      tokenize s = parse_words_etc (parse_integers_and_reals out) := by
  refine ⟨sepAll (splitTokens s), ?_, ?_⟩
  · have h := sepLoop_append (splitTokens s).length [] (splitTokens s) (Nat.le_refl _)
    simpa using h
  · rw [tokenize, sep_eq_sepAll]

/-- C2 counterexample: the claim says single-label hosts such as
`http://localhost` are rewritten to `Url`, but the URL regex requires
`(\w+\.)+` — at least one dot-terminated label before the final one —
so `http://localhost` survives as `Unknown`. -/
theorem claim_C2_counterexample :
    tokenize ("http://localhost".toList) = [Token.Unknown ("http://localhost".toList)] ∧
      tokenize ("http://localhost".toList) ≠ [Token.Url ("http://localhost".toList)] := by
  constructor
  · rfl
  · decide

/-- C2 (amended): the URL regex requires at least TWO dot-separated
host labels, so the claim is amended to that family; single-label
hosts such as `http://localhost` are excluded (see the
counterexample).  Stated generically over the `\w` class `w` — the
crate's Unicode `\w` is such a class (it does not contain `'.'`), so
the instance at the program's true class covers non-ASCII host labels
too: for every string made of an `http://` or `https://` prefix, a
nonempty `\w` run, a dot, a `\w` character and then any characters of
the tail class `[\w/#?&=.]`, the lexical classifier rewrites the
surviving `Unknown` token holding that string into `Url`. -/
theorem claim_C2_url_two_labels (w : Char → Bool) (hdot : w '.' = false)
    (secure : Bool) (w1 : List Char) (c : Char) (rest : List Char)
    (h1 : w1 ≠ []) (h2 : ∀ x ∈ w1, w x = true) (h3 : w c = true)
    (h4 : ∀ x ∈ rest, isUrlTailCharW w x = true) :
    parse_words_etcW w
        [Token.Unknown ((if secure then httpsScheme else httpScheme) ++ w1 ++ '.' :: c :: rest)] =
      [Token.Url ((if secure then httpsScheme else httpScheme) ++ w1 ++ '.' :: c :: rest)] := by
  have hhost : urlHostTailW w (w1 ++ '.' :: c :: rest) = true :=
    urlHostTailW_of_shape w hdot w1 c rest h1 h2 h3 h4
  have hurl : isUrlTextW w
      ((if secure then httpsScheme else httpScheme) ++ (w1 ++ '.' :: c :: rest)) = true := by
    cases secure
    · rw [if_neg (by simp), isUrlTextW_http, hhost]
    · rw [if_pos rfl, isUrlTextW_https, hhost]
  simp [parse_words_etcW, classifyWordW, hurl]

theorem claim_C2_url_two_labels_witness :
    parse_words_etcW isWordChar
        [Token.Unknown ((if false then httpsScheme else httpScheme) ++ ['g'] ++ '.' :: 'c' :: [])] =
      [Token.Url ((if false then httpsScheme else httpScheme) ++ ['g'] ++ '.' :: 'c' :: [])] :=
  claim_C2_url_two_labels isWordChar (by decide) false ['g'] 'c' []
    (by decide) (by decide) (by decide) (by decide)

/-- C3: for every input string, concatenating the source substrings of
the returned tokens left to right (a `Punctuation` token standing for
its single literal character) reconstructs exactly the non-whitespace
content of the input in original order. -/
theorem claim_C3_concatenation (s : List Char) :
    textsOf (tokenize s) = s.filter fun c => !isWhitespaceChar c := by
  rw [tokenize, textsOf_parse_words_etc, textsOf_parse_integers_and_reals, sep_eq_sepAll,
    textsOf_sepAll, textsOf_splitTokens, splitOnPred_flatten]

/-- C4: classification is monotonic — a token that is not `Unknown`
passes through each of the three passes verbatim, in place, with the
surrounding tokens processed independently; every pass rewrites only
`Unknown` tokens. -/
theorem claim_C4_monotonic (pre post : List Token) (t : Token)
    (h : ∀ v, t ≠ Token.Unknown v) :
    separate_end_punctuation (pre ++ t :: post) =
        separate_end_punctuation pre ++ t :: separate_end_punctuation post ∧
      parse_integers_and_reals (pre ++ t :: post) =
        parse_integers_and_reals pre ++ t :: parse_integers_and_reals post ∧
      parse_words_etc (pre ++ t :: post) =
        parse_words_etc pre ++ t :: parse_words_etc post := by
  refine ⟨?_, ?_, ?_⟩
  · rw [sep_append_cons, sepTok_not_unknown t h]
    simp
  · simp [parse_integers_and_reals, classifyNumber_not_unknown t h]
  · simp [parse_words_etc, classifyWord_not_unknown t h]

theorem claim_C4_monotonic_witness :
    separate_end_punctuation ([] ++ Token.Punctuation Punctuation.Comma :: [Token.Unknown ['a']]) =
        separate_end_punctuation [] ++
          Token.Punctuation Punctuation.Comma :: separate_end_punctuation [Token.Unknown ['a']] ∧
      parse_integers_and_reals ([] ++ Token.Punctuation Punctuation.Comma :: [Token.Unknown ['a']]) =
        parse_integers_and_reals [] ++
          Token.Punctuation Punctuation.Comma :: parse_integers_and_reals [Token.Unknown ['a']] ∧
      parse_words_etc ([] ++ Token.Punctuation Punctuation.Comma :: [Token.Unknown ['a']]) =
        parse_words_etc [] ++
          Token.Punctuation Punctuation.Comma :: parse_words_etc [Token.Unknown ['a']] :=
  claim_C4_monotonic [] [Token.Unknown ['a']] (Token.Punctuation Punctuation.Comma)
    fun v hv => Token.noConfusion hv

/-- C5: generically over the `\d` class `d` — any class containing no
`','` or `'.'` , as the crate's `\p{Nd}` does not, and containing the
digits of the example, as `\p{Nd}` does — the number classifier tests
each `Unknown` token's text against the four regex languages in the
fixed first-match-wins order real → integer → comma-real →
comma-integer (the `Spec...` predicates are the spec's regexes
transcribed literally and proved equivalent to the matchers); a text
matching none of the four is left `Unknown`, and no grouping-size
validation is applied: `1,2,3` is accepted as comma-grouped. -/
theorem claim_C5_number_priority (d : Char → Bool) (hcd : d ',' = false)
    (hd : d '.' = false) (h1 : d '1' = true) (h2 : d '2' = true) (h3 : d '3' = true)
    (s : List Char) :
    (SpecPlainReal d s →
      parse_integers_and_realsD d [Token.Unknown s] = [Token.RealNumber s]) ∧
    (¬ SpecPlainReal d s → SpecPlainInt d s →
      parse_integers_and_realsD d [Token.Unknown s] = [Token.Integer s]) ∧
    (¬ SpecPlainReal d s → ¬ SpecPlainInt d s → SpecCommaReal d s →
      parse_integers_and_realsD d [Token.Unknown s] = [Token.CommaFormattedRealNumber s]) ∧
    (¬ SpecPlainReal d s → ¬ SpecPlainInt d s → ¬ SpecCommaReal d s → SpecCommaInt d s →
      parse_integers_and_realsD d [Token.Unknown s] = [Token.CommaFormattedInteger s]) ∧
    (¬ SpecPlainReal d s → ¬ SpecPlainInt d s → ¬ SpecCommaReal d s → ¬ SpecCommaInt d s →
      parse_integers_and_realsD d [Token.Unknown s] = [Token.Unknown s]) ∧
    parse_integers_and_realsD d [Token.Unknown ("1,2,3".toList)] =
      [Token.CommaFormattedInteger ("1,2,3".toList)] := by
  refine ⟨?_, ?_, ?_, ?_, ?_, ?_⟩
  · intro hr
    have hb1 : isRealNumberTextD d s = true := (isRealNumberTextD_iff d hd s).mpr hr
    simp [parse_integers_and_realsD, classifyNumberD, hb1]
  · intro hr hi
    have hb1 : isRealNumberTextD d s = false :=
      Bool.eq_false_iff.mpr fun hb => hr ((isRealNumberTextD_iff d hd s).mp hb)
    have hb2 : isIntegerTextD d s = true := (isIntegerTextD_iff d s).mpr hi
    simp [parse_integers_and_realsD, classifyNumberD, hb1, hb2]
  · intro hr hi hcr
    have hb1 : isRealNumberTextD d s = false :=
      Bool.eq_false_iff.mpr fun hb => hr ((isRealNumberTextD_iff d hd s).mp hb)
    have hb2 : isIntegerTextD d s = false :=
      Bool.eq_false_iff.mpr fun hb => hi ((isIntegerTextD_iff d s).mp hb)
    have hb3 : isCommaRealTextD d s = true := (isCommaRealTextD_iff d hcd hd s).mpr hcr
    simp [parse_integers_and_realsD, classifyNumberD, hb1, hb2, hb3]
  · intro hr hi hcr hci
    have hb1 : isRealNumberTextD d s = false :=
      Bool.eq_false_iff.mpr fun hb => hr ((isRealNumberTextD_iff d hd s).mp hb)
    have hb2 : isIntegerTextD d s = false :=
      Bool.eq_false_iff.mpr fun hb => hi ((isIntegerTextD_iff d s).mp hb)
    have hb3 : isCommaRealTextD d s = false :=
      Bool.eq_false_iff.mpr fun hb => hcr ((isCommaRealTextD_iff d hcd hd s).mp hb)
    have hb4 : isCommaIntTextD d s = true := (isCommaIntTextD_iff d hcd s).mpr hci
    simp [parse_integers_and_realsD, classifyNumberD, hb1, hb2, hb3, hb4]
  · intro hr hi hcr hci
    have hb1 : isRealNumberTextD d s = false :=
      Bool.eq_false_iff.mpr fun hb => hr ((isRealNumberTextD_iff d hd s).mp hb)
    have hb2 : isIntegerTextD d s = false :=
      Bool.eq_false_iff.mpr fun hb => hi ((isIntegerTextD_iff d s).mp hb)
    have hb3 : isCommaRealTextD d s = false :=
      Bool.eq_false_iff.mpr fun hb => hcr ((isCommaRealTextD_iff d hcd hd s).mp hb)
    have hb4 : isCommaIntTextD d s = false :=
      Bool.eq_false_iff.mpr fun hb => hci ((isCommaIntTextD_iff d hcd s).mp hb)
    simp [parse_integers_and_realsD, classifyNumberD, hb1, hb2, hb3, hb4]
  · show parse_integers_and_realsD d [Token.Unknown ['1', ',', '2', ',', '3']] =
      [Token.CommaFormattedInteger ['1', ',', '2', ',', '3']]
    have hsplit123 : splitOnPred (fun c => c == ',') ['1', ',', '2', ',', '3'] =
        [['1'], ['2'], ['3']] := by decide
    have hdw123 : List.dropWhile d ['1', ',', '2', ',', '3'] = [',', '2', ',', '3'] := by
      rw [List.dropWhile_cons, if_pos h1, List.dropWhile_cons, if_neg (by simp [hcd])]
    have e1 : isRealNumberTextD d ['1', ',', '2', ',', '3'] = false := by
      unfold isRealNumberTextD
      rw [hdw123]
      simp [show ((',' : Char) == '.') = false from by decide]
    have e2 : isIntegerTextD d ['1', ',', '2', ',', '3'] = false := by
      unfold isIntegerTextD
      simp [hcd]
    have e3 : isCommaRealTextD d ['1', ',', '2', ',', '3'] = false := by
      have h53 : isRealNumberTextD d ['3'] = false := by
        unfold isRealNumberTextD
        rw [List.dropWhile_cons, if_pos h3]
        rfl
      simp only [isCommaRealTextD, hsplit123]
      rw [show List.getLastD [['1'], ['2'], ['3']] ([] : List Char) = ['3'] from rfl, h53]
      simp
    have e4 : isCommaIntTextD d ['1', ',', '2', ',', '3'] = true := by
      simp only [isCommaIntTextD, hsplit123]
      simp [h1, h2, h3]
    simp [parse_integers_and_realsD, classifyNumberD, e1, e2, e3, e4]

theorem claim_C5_number_priority_witness :
    SpecPlainReal isDigitChar ("1.5".toList) ∧
      parse_integers_and_realsD isDigitChar [Token.Unknown ("1.5".toList)] =
        [Token.RealNumber ("1.5".toList)] := by
  have hs : SpecPlainReal isDigitChar ("1.5".toList) :=
    ⟨['1'], ['5'], by decide, by decide, by decide, by decide, by decide⟩
  exact ⟨hs, (claim_C5_number_priority isDigitChar (by decide) (by decide) (by decide)
    (by decide) (by decide) ("1.5".toList)).1 hs⟩

/-- C6: in the punctuation pass, an `Unknown` token whose text ends in
a trailing run of two or more punctuation characters is left completely
untouched — no replacement, no insertion — and the scan simply moves on
to the surrounding tokens, which are processed independently. -/
theorem claim_C6_long_run_untouched (pre post : List Token) (s : List Char)
    (h : 2 ≤ punctRunLen s) :
    separate_end_punctuation (pre ++ Token.Unknown s :: post) =
      separate_end_punctuation pre ++ Token.Unknown s :: separate_end_punctuation post := by
  rw [sep_append_cons, sepTok_long_run s h]
  simp

theorem claim_C6_long_run_untouched_witness :
    2 ≤ punctRunLen ['!', '!'] ∧
      separate_end_punctuation ([] ++ Token.Unknown ['!', '!'] :: []) =
        separate_end_punctuation [] ++
          Token.Unknown ['!', '!'] :: separate_end_punctuation [] :=
  ⟨by decide, claim_C6_long_run_untouched [] [] ['!', '!'] (by decide)⟩

/-- C7: `tokenize "Hello, world!"` returns exactly
`[Word "Hello", Punctuation Comma, Word "world", Punctuation Exclamation]`. -/
theorem claim_C7_hello_world :
    tokenize ("Hello, world!".toList) =
      [Token.Word ("Hello".toList), Token.Punctuation Punctuation.Comma,
        Token.Word ("world".toList), Token.Punctuation Punctuation.Exclamation] := by
  rfl

/-- C8: for the empty string and for every input consisting only of
whitespace characters, `tokenize` returns the empty sequence. -/
theorem claim_C8_whitespace_empty (s : List Char)
    (h : ∀ c ∈ s, isWhitespaceChar c = true) : tokenize s = [] := by
  rw [tokenize, splitTokens_all_ws s h]
  rfl

theorem claim_C8_whitespace_empty_witness :
    (∀ c ∈ (" \t\n\r".toList), isWhitespaceChar c = true) ∧
      tokenize (" \t\n\r".toList) = [] :=
  ⟨by decide, claim_C8_whitespace_empty _ (by decide)⟩

/-- C9: no token at any pass boundary — after splitting, after
punctuation separation, after number classification, or in the final
output — carries an empty string payload. -/
theorem claim_C9_no_empty_payload (s : List Char) :
    (∀ t ∈ splitTokens s, payloadOk t) ∧
    (∀ t ∈ separate_end_punctuation (splitTokens s), payloadOk t) ∧
    (∀ t ∈ parse_integers_and_reals (separate_end_punctuation (splitTokens s)), payloadOk t) ∧
    (∀ t ∈ tokenize s, payloadOk t) := by
  have h1 := payloadOk_splitTokens s
  have h2 : ∀ t ∈ separate_end_punctuation (splitTokens s), payloadOk t := by
    rw [sep_eq_sepAll]
    exact payloadOk_sepAll _ h1
  have h3 : ∀ t ∈ parse_integers_and_reals (separate_end_punctuation (splitTokens s)),
      payloadOk t := by
    intro t ht
    simp only [parse_integers_and_reals] at ht
    obtain ⟨u, hu, rfl⟩ := List.mem_map.mp ht
    exact payloadOk_classifyNumber u (h2 u hu)
  refine ⟨h1, h2, h3, ?_⟩
  intro t ht
  rw [tokenize] at ht
  simp only [parse_words_etc] at ht
  obtain ⟨u, hu, rfl⟩ := List.mem_map.mp ht
  exact payloadOk_classifyWord u (h3 u hu)

theorem claim_C9_no_empty_payload_witness :
    payloadOk (Token.Word ['h', 'i']) :=
  (claim_C9_no_empty_payload ['h', 'i']).2.2.2 (Token.Word ['h', 'i']) (by decide)

/-- C10 (implicit): generically over the two regex character classes
`d` (for `\d`) and `w` (for `\w`) — hence in particular at the
crate's true Unicode classes, which instantiate the program — every
`Unknown` token surviving in the final output of the tokenizer built
on those classes has a text that matches none of the nine
classification patterns built on the same classes: a surviving
`Unknown` is never a missed classification. -/
theorem claim_C10_unknown_residual (d w : Char → Bool) (input v : List Char)
    (h : Token.Unknown v ∈ tokenizeW d w input) :
    isRealNumberTextD d v = false ∧ isIntegerTextD d v = false ∧
      isCommaRealTextD d v = false ∧ isCommaIntTextD d v = false ∧
      isUrlTextW w v = false ∧ isHashtagTextW w v = false ∧
      isUsernameTextW w v = false ∧ isWordTextW w v = false ∧
      isHyphenatedText v = false := by
  unfold tokenizeW at h
  simp only [parse_words_etcW] at h
  obtain ⟨t1, ht1, heq1⟩ := List.mem_map.mp h
  obtain ⟨hT1, hword⟩ := classifyWordW_eq_unknown w t1 v heq1
  subst hT1
  simp only [parse_integers_and_realsD] at ht1
  obtain ⟨t2, ht2, heq2⟩ := List.mem_map.mp ht1
  obtain ⟨hT2, hnum⟩ := classifyNumberD_eq_unknown d t2 v heq2
  exact ⟨hnum.1, hnum.2.1, hnum.2.2.1, hnum.2.2.2, hword.1, hword.2.1, hword.2.2.1,
    hword.2.2.2.1, hword.2.2.2.2⟩

theorem claim_C10_unknown_residual_witness :
    isRealNumberTextD isDigitChar ['!', '!'] = false ∧
      isIntegerTextD isDigitChar ['!', '!'] = false ∧
      isCommaRealTextD isDigitChar ['!', '!'] = false ∧
      isCommaIntTextD isDigitChar ['!', '!'] = false ∧
      isUrlTextW isWordChar ['!', '!'] = false ∧
      isHashtagTextW isWordChar ['!', '!'] = false ∧
      isUsernameTextW isWordChar ['!', '!'] = false ∧
      isWordTextW isWordChar ['!', '!'] = false ∧
      isHyphenatedText ['!', '!'] = false :=
  claim_C10_unknown_residual isDigitChar isWordChar ['!', '!'] ['!', '!'] (by decide)

end Sentence
